import Mathlib

/-!
Verification of the LaTeX parser module (src/utils/latex-parser.js) of the
Research-Assistant-Extension repository.

Strings are modelled as `List Char`.  Every JavaScript regex used by the module
is a fixed pattern over a string; each `replace`/`test`/`match` call is
translated into an executable Lean function with the same left-to-right,
non-overlapping match semantics.  Scanning passes that consume a variable
number of characters per match are written with an explicit fuel parameter
(structural recursion on the fuel) so that all definitions reduce by `decide`;
the fuel is initialised to the length of the scanned list, which suffices
because every match consumes at least one character and every non-match emits
exactly one character, so the fuel-exhausted branch is never reached.
-/

set_option maxRecDepth 100000

/-- Substring containment, the JS `String.prototype.includes` and the
presence test of a regex consisting of a literal pattern. -/
def containsSub (pat : List Char) : List Char → Bool
  | [] => pat.isPrefixOf ([] : List Char)
  | c :: rest => pat.isPrefixOf (c :: rest) || containsSub pat rest

/-- JavaScript whitespace class: the characters matched by the regex class
`\s` (and stripped by `String.prototype.trim`). -/
def isWs (c : Char) : Bool :=
  c = ' ' || c = '\t' || c = '\n' || c.toNat = 11 || c.toNat = 12 || c = '\r' ||
  c.toNat = 0xa0 || c.toNat = 0x1680 || (0x2000 ≤ c.toNat && c.toNat ≤ 0x200a) ||
  c.toNat = 0x2028 || c.toNat = 0x2029 || c.toNat = 0x202f || c.toNat = 0x205f ||
  c.toNat = 0x3000 || c.toNat = 0xfeff

/-- ASCII letter, the regex class `[a-zA-Z]`. -/
def isAsciiLetter (c : Char) : Bool :=
  ('a' ≤ c && c ≤ 'z') || ('A' ≤ c && c ≤ 'Z')

/-- ASCII digit, the regex class `[0-9]` / `\d`. -/
def isAsciiDigit (c : Char) : Bool := '0' ≤ c && c ≤ '9'

/-- Regex word character class `\w`, used for `\b` word boundaries. -/
def isWordChar (c : Char) : Bool := isAsciiLetter c || isAsciiDigit c || c = '_'

/-- JavaScript `String.prototype.trim`: drop whitespace from both ends. -/
def jsTrim (l : List Char) : List Char :=
  ((l.dropWhile isWs).reverse.dropWhile isWs).reverse

/-- Generic left-to-right regex-replacement scan.  `step l` returns
`some (out, rem)` when the pattern matches at the start of `l`, where `out` is
the replacement text and `rem` is the input after the matched portion (every
match consumes at least one character); on `none` the scan emits one character
and advances, exactly like a global `String.prototype.replace`. -/
def scanF (step : List Char → Option (List Char × List Char)) :
    Nat → List Char → List Char
  | _, [] => []
  | 0, l => l
  | fuel + 1, c :: rest =>
    match step (c :: rest) with
    | some (out, rem) => out ++ scanF step fuel rem
    | none => c :: scanF step fuel rest

/-- Run a replacement scan with sufficient fuel. -/
def scanRun (step : List Char → Option (List Char × List Char))
    (l : List Char) : List Char :=
  scanF step l.length l

/-- Matcher for a literal token `pat`: used for the symbol-table substitution
pass, where each table key is turned into a literal regex (the keys consist of
a backslash followed by letters, so escaping the backslash yields a literal
pattern with no metacharacters). -/
def tokStep (pat rep : List Char) (l : List Char) :
    Option (List Char × List Char) :=
  if 0 < pat.length ∧ pat.isPrefixOf l then some (rep, l.drop pat.length)
  else none

/-- Literal global replace, the JS `result.replace(new RegExp(cmd, 'g'), rep)`.
Replacement text is not rescanned, matching JS semantics. -/
def replaceTok (pat rep l : List Char) : List Char :=
  scanRun (tokStep pat rep) l

/-- Match `pre` followed by `{`, then one or more non-`}` characters (the
greedy `[^}]+` group), then `}`.  Returns the captured group and the remainder
after the closing brace. -/
def matchBraced : List Char → List Char → Option (List Char × List Char)
  | [], c :: r2 =>
    if c = '{' then
      let inner := r2.takeWhile (fun x => x != '}')
      if 0 < inner.length ∧ inner.length < r2.length then
        some (inner, r2.drop (inner.length + 1))
      else none
    else none
  | p :: ps, c :: rest => if c = p then matchBraced ps rest else none
  | _, [] => none

/-- Source `clean`, step `.replace(/\\\[|\\\]/g, '')`: remove display math
delimiters. -/
def removeMathDelims : List Char → List Char
  | [] => []
  | '\\' :: '[' :: rest => removeMathDelims rest
  | '\\' :: ']' :: rest => removeMathDelims rest
  | c :: rest => c :: removeMathDelims rest

/-- Source `clean`, step `.replace(/\$\$?/g, '')`: remove inline math
delimiters (`$$` when possible, else `$`; either way every dollar sign is
removed). -/
def removeDollars : List Char → List Char
  | [] => []
  | '$' :: '$' :: rest => removeDollars rest
  | '$' :: rest => removeDollars rest
  | c :: rest => c :: removeDollars rest

/-- Step function of `.replace(/\\begin\{[^}]+\}/g, '')`. -/
def beginStep (l : List Char) : Option (List Char × List Char) :=
  match matchBraced "\\begin".data l with
  | some p => some ([], p.2)
  | none => none

/-- Source `clean`, step `.replace(/\\begin\{[^}]+\}/g, '')`. -/
def removeBegin (l : List Char) : List Char := scanRun beginStep l

/-- Step function of `.replace(/\\end\{[^}]+\}/g, '')`. -/
def endStep (l : List Char) : Option (List Char × List Char) :=
  match matchBraced "\\end".data l with
  | some p => some ([], p.2)
  | none => none

/-- Source `clean`, step `.replace(/\\end\{[^}]+\}/g, '')`. -/
def removeEnd (l : List Char) : List Char := scanRun endStep l

/-- Source `clean`, step `.replace(/&/g, ' ')`. -/
def replaceAmp (l : List Char) : List Char :=
  l.map (fun c => if c = '&' then ' ' else c)

/-- Source `clean`, step `.replace(/\\\\/g, ' ')`: each non-overlapping pair of
backslashes becomes one space. -/
def replaceLineBreaks : List Char → List Char
  | [] => []
  | '\\' :: '\\' :: rest => ' ' :: replaceLineBreaks rest
  | c :: rest => c :: replaceLineBreaks rest

/-- Source `clean`, step `.replace(/\s+/g, ' ')`: every maximal run of
whitespace becomes a single space. -/
def collapseWs : List Char → List Char
  | [] => []
  | [c] => if isWs c then [' '] else [c]
  | c :: d :: rest =>
    if isWs c then
      if isWs d then collapseWs (d :: rest) else ' ' :: collapseWs (d :: rest)
    else c :: collapseWs (d :: rest)

/-- Source function `clean` (src/utils/latex-parser.js lines 53-64): trim,
strip display and inline math delimiters, strip begin/end environment
wrappers, replace alignment characters and double-backslash line breaks by
spaces, collapse whitespace, trim. -/
def clean (l : List Char) : List Char :=
  jsTrim (collapseWs (replaceLineBreaks (replaceAmp (removeEnd (removeBegin
    (removeDollars (removeMathDelims (jsTrim l))))))))

/-- Source `symbolMap` (lines 8-31), in object-literal insertion order, which
is the order `Object.entries` iterates and hence the order the substitution
loop in `toReadable` applies. -/
def symbolMap : List (List Char × List Char) :=
  [("\\alpha".data, "α".data), ("\\beta".data, "β".data),
   ("\\gamma".data, "γ".data), ("\\delta".data, "δ".data),
   ("\\epsilon".data, "ε".data), ("\\zeta".data, "ζ".data),
   ("\\eta".data, "η".data), ("\\theta".data, "θ".data),
   ("\\iota".data, "ι".data), ("\\kappa".data, "κ".data),
   ("\\lambda".data, "λ".data), ("\\mu".data, "μ".data),
   ("\\nu".data, "ν".data), ("\\xi".data, "ξ".data),
   ("\\pi".data, "π".data), ("\\rho".data, "ρ".data),
   ("\\sigma".data, "σ".data), ("\\tau".data, "τ".data),
   ("\\upsilon".data, "υ".data), ("\\phi".data, "φ".data),
   ("\\chi".data, "χ".data), ("\\psi".data, "ψ".data),
   ("\\omega".data, "ω".data),
   ("\\Gamma".data, "Γ".data), ("\\Delta".data, "Δ".data),
   ("\\Theta".data, "Θ".data), ("\\Lambda".data, "Λ".data),
   ("\\Xi".data, "Ξ".data), ("\\Pi".data, "Π".data),
   ("\\Sigma".data, "Σ".data), ("\\Phi".data, "Φ".data),
   ("\\Psi".data, "Ψ".data), ("\\Omega".data, "Ω".data),
   ("\\infty".data, "∞".data), ("\\partial".data, "∂".data),
   ("\\nabla".data, "∇".data),
   ("\\sum".data, "Σ".data), ("\\prod".data, "Π".data),
   ("\\int".data, "∫".data),
   ("\\leq".data, "≤".data), ("\\geq".data, "≥".data),
   ("\\neq".data, "≠".data), ("\\approx".data, "≈".data),
   ("\\pm".data, "±".data), ("\\times".data, "×".data),
   ("\\div".data, "÷".data), ("\\cdot".data, "·".data),
   ("\\in".data, "∈".data), ("\\notin".data, "∉".data),
   ("\\subset".data, "⊂".data), ("\\supset".data, "⊃".data),
   ("\\cup".data, "∪".data), ("\\cap".data, "∩".data),
   ("\\emptyset".data, "∅".data),
   ("\\forall".data, "∀".data), ("\\exists".data, "∃".data),
   ("\\neg".data, "¬".data),
   ("\\wedge".data, "∧".data), ("\\vee".data, "∨".data),
   ("\\Rightarrow".data, "⇒".data), ("\\Leftrightarrow".data, "⇔".data),
   ("\\rightarrow".data, "→".data), ("\\leftarrow".data, "←".data),
   ("\\leftrightarrow".data, "↔".data),
   ("\\ldots".data, "...".data), ("\\cdots".data, "⋯".data),
   ("\\vdots".data, "⋮".data),
   ("\\sqrt".data, "√".data), ("\\exp".data, "exp".data),
   ("\\log".data, "log".data), ("\\ln".data, "ln".data),
   ("\\sin".data, "sin".data), ("\\cos".data, "cos".data),
   ("\\tan".data, "tan".data),
   ("\\lim".data, "lim".data), ("\\max".data, "max".data),
   ("\\min".data, "min".data), ("\\arg".data, "arg".data)]

/-- Step function of `.replace(/\\frac\{([^}]+)\}\{([^}]+)\}/g, '($1)/($2)')`. -/
def fracStep (l : List Char) : Option (List Char × List Char) :=
  match matchBraced "\\frac".data l with
  | some (a, rem) =>
    match matchBraced [] rem with
    | some (b, rem2) =>
      some ('(' :: (a ++ ')' :: '/' :: '(' :: (b ++ [')'])), rem2)
    | none => none
  | none => none

/-- Step function of `.replace(/\^{([^}]+)}/g, '^($1)')`. -/
def supStep (l : List Char) : Option (List Char × List Char) :=
  match matchBraced "^".data l with
  | some (a, rem) => some ('^' :: '(' :: (a ++ [')']), rem)
  | none => none

/-- Step function of `.replace(/_{([^}]+)}/g, '_($1)')`. -/
def subStep (l : List Char) : Option (List Char × List Char) :=
  match matchBraced "_".data l with
  | some (a, rem) => some ('_' :: '(' :: (a ++ [')']), rem)
  | none => none

/-- Step function of `.replace(/\\sqrt\{([^}]+)\}/g, '√($1)')`. -/
def sqrtBraceStep (l : List Char) : Option (List Char × List Char) :=
  match matchBraced "\\sqrt".data l with
  | some (a, rem) => some ('√' :: '(' :: (a ++ [')']), rem)
  | none => none

/-- Step function of `.replace(/\\sqrt\[(\d+)\]\{([^}]+)\}/g, '$1√($2)')`. -/
def sqrtIdxStep (l : List Char) : Option (List Char × List Char) :=
  if ("\\sqrt[".data).isPrefixOf l then
    let r1 := l.drop 6
    let ds := r1.takeWhile isAsciiDigit
    if 0 < ds.length then
      match r1.drop ds.length with
      | ']' :: '{' :: r2 =>
        let inner := r2.takeWhile (fun c => c != '}')
        if 0 < inner.length ∧ inner.length < r2.length then
          some (ds ++ '√' :: '(' :: (inner ++ [')']), r2.drop (inner.length + 1))
        else none
      | _ => none
    else none
  else none

/-- Unwrapping pass for `\text{...}`, `\mathrm{...}`, `\mathbf{...}`:
`.replace(/\\cmd\{([^}]+)\}/g, '$1')`. -/
def unwrapStep (cmd : List Char) (l : List Char) :
    Option (List Char × List Char) :=
  matchBraced cmd l

/-- Step function of `.replace(/\\[a-zA-Z]+/g, '')`: strip any remaining
backslash command (greedy run of letters). -/
def stripCmdStep : List Char → Option (List Char × List Char)
  | '\\' :: c :: rest =>
    if isAsciiLetter c then some ([], (c :: rest).dropWhile isAsciiLetter)
    else none
  | _ => none

/-- Source function `toReadable` (lines 69-100).  The two passes
`.replace(/\^(\w)/g, '^$1')` and `.replace(/_(\w)/g, '_$1')` replace matched
text by identical text and are therefore omitted as textual identities. -/
def toReadable (l : List Char) : List Char :=
  let r := symbolMap.foldl (fun acc p => replaceTok p.1 p.2 acc) l
  let r := scanRun fracStep r
  let r := scanRun supStep r
  let r := scanRun subStep r
  let r := scanRun sqrtBraceStep r
  let r := scanRun sqrtIdxStep r
  let r := scanRun (unwrapStep "\\text".data) r
  let r := scanRun (unwrapStep "\\mathrm".data) r
  let r := scanRun (unwrapStep "\\mathbf".data) r
  let r := scanRun stripCmdStep r
  let r := r.filter (fun c => !(c = '{' || c = '}'))
  jsTrim r

/-- One entry of the `variables` inventory: `{ symbol, latex, type }`. -/
structure VarEntry where
  symbol : List Char
  latex : List Char
  type : List Char
deriving Repr, DecidableEq

/-- Scan for the matches of `/(?<![\\a-zA-Z])([a-zA-Z])(?![a-zA-Z])/g`: a
single ASCII letter neither preceded by a backslash or a letter nor followed
by a letter.  `prev` carries the character before the current position. -/
def latinAux : Option Char → List Char → List Char
  | _, [] => []
  | prev, c :: rest =>
    if isAsciiLetter c
        && (match prev with
            | none => true
            | some p => !(isAsciiLetter p || p = '\\'))
        && (match rest with
            | [] => true
            | d :: _ => !(isAsciiLetter d)) then
      c :: latinAux (some c) rest
    else latinAux (some c) rest

/-- Source function `extractVariables` (lines 105-135).  The source inserts
freshly created objects into a JS `Set`; since `Set` compares objects by
reference and every inserted object is fresh, no element is ever
deduplicated, so the `Set` is faithfully modelled as a list in insertion
order (symbol-table commands found in the input first, then bare Latin
letters excluding the reserved constants `d`, `e`, `i`). -/
def extractVariables (l : List Char) : List VarEntry :=
  ((symbolMap.filter (fun p => containsSub p.1 l)).map
      (fun p => ⟨p.2, p.1, "greek".data⟩))
    ++ (((latinAux none l).filter
          (fun c => !(c = 'd' || c = 'e' || c = 'i'))).map
        (fun c => ⟨[c], [c], "latin".data⟩))

/-- Word boundary `\b` immediately after a matched token: satisfied when the
remaining input is empty or starts with a non-word character. -/
def wbAfter : List Char → Bool
  | [] => true
  | c :: _ => !(isWordChar c)

/-- Does the predicate hold at some suffix position of the list?  Models a
regex `test` over all start positions. -/
def anyPos (p : List Char → Bool) : List Char → Bool
  | [] => p []
  | c :: rest => p (c :: rest) || anyPos p rest

/-- Match of `\\E\b` at the current position. -/
def expAt (l : List Char) : Bool :=
  ("\\E".data).isPrefixOf l && wbAfter (l.drop 2)

/-- Match of `\\Pr?\b` at the current position: `\Pr` with a boundary after
the `r`, or `\P` with a boundary after the `P` (when the next character is an
`r` the second branch has no boundary, so the two branches together cover all
backtracking cases of the optional `r?`). -/
def probAt (l : List Char) : Bool :=
  (("\\Pr".data).isPrefixOf l && wbAfter (l.drop 3)) ||
  (("\\P".data).isPrefixOf l && wbAfter (l.drop 2))

/-- Match of `\\arg\s*\\max` at the current position (greedy whitespace run
is exact because `\max` starts with a non-whitespace character). -/
def argmaxAt (l : List Char) : Bool :=
  ("\\arg".data).isPrefixOf l &&
  ("\\max".data).isPrefixOf ((l.drop 4).dropWhile isWs)

/-- Match of `\\arg\s*\\min` at the current position. -/
def argminAt (l : List Char) : Bool :=
  ("\\arg".data).isPrefixOf l &&
  ("\\min".data).isPrefixOf ((l.drop 4).dropWhile isWs)

/-- Emit a tag when its presence test succeeds. -/
def opTag (b : Bool) (name : List Char) : List (List Char) :=
  if b then [name] else []

/-- Source function `extractOperators` (lines 140-162): presence tests in
object-literal order. -/
def extractOperators (l : List Char) : List (List Char) :=
  opTag (containsSub "\\sum".data l) "sum".data ++
  opTag (containsSub "\\prod".data l) "product".data ++
  opTag (containsSub "\\int".data l) "integral".data ++
  opTag (containsSub "\\lim".data l) "limit".data ++
  opTag (containsSub "\\mathbb{E}".data l || anyPos expAt l) "expectation".data ++
  opTag (containsSub "\\mathbb{P}".data l || anyPos probAt l) "probability".data ++
  opTag (containsSub "\\nabla".data l) "gradient".data ++
  opTag (anyPos argmaxAt l) "argmax".data ++
  opTag (anyPos argminAt l) "argmin".data

/-- Lower-case an ASCII letter; other characters are unchanged.  Used for the
case-insensitive (`i` flag) presence tests, whose patterns consist of ASCII
characters only. -/
def lowerAscii (c : Char) : Char :=
  if 'A' ≤ c ∧ c ≤ 'Z' then Char.ofNat (c.toNat + 32) else c

/-- Case-insensitive containment test for an ASCII pattern written in lower
case. -/
def ciContains (pat : List Char) (l : List Char) : Bool :=
  containsSub pat (l.map lowerAscii)

/-- Source `funcPatterns.norm` (line 178): the regex literal
`/\\|\s*\|.*?\|\s*\\||\|.*?\|/g` parses as the alternation of
(1) `\\` (a single backslash), (2) `\s*\|.*?\|\s*\\`, (3) the EMPTY pattern
(between the consecutive `||` near the end), and (4) `\|.*?\|`.
Because alternative (3) is empty it matches at position 0 of every string, so
the presence test evaluates to true for every input, including the empty
string. -/
def normTest (_l : List Char) : Bool := true

/-- Source function `extractFunctions` (lines 167-188): presence tests in
object-literal order; `softmax`, `sigmoid`, `relu`, `tanh` and `loss` carry
the case-insensitive flag. -/
def extractFunctions (l : List Char) : List (List Char) :=
  opTag (containsSub "\\exp".data l || containsSub "e^".data l) "exponential".data ++
  opTag (containsSub "\\log".data l || containsSub "\\ln".data l) "logarithm".data ++
  opTag (ciContains "softmax".data l) "softmax".data ++
  opTag (ciContains "sigmoid".data l || ciContains "\\sigma".data l) "sigmoid".data ++
  opTag (ciContains "relu".data l) "relu".data ++
  opTag (ciContains "\\tanh".data l || ciContains "tanh".data l) "tanh".data ++
  opTag (ciContains "\\mathcal{l}".data l || ciContains "loss".data l) "loss".data ++
  opTag (normTest l) "norm".data

/-- Source `countNesting` (lines 249-263): maximum value of the running count
of open braces; the counter may go negative on unmatched closing braces, so it
is modelled as an integer like a JS number. -/
def countNestingAux : List Char → Int → Int → Int
  | [], _, maxDepth => maxDepth
  | c :: rest, cur, maxDepth =>
    if c = '{' then countNestingAux rest (cur + 1) (max maxDepth (cur + 1))
    else if c = '}' then countNestingAux rest (cur - 1) maxDepth
    else countNestingAux rest cur maxDepth

/-- Source function `countNesting`. -/
def countNesting (l : List Char) : Int := countNestingAux l 0 0

/-- Counting pass of `latex.match(/\\(sum|prod|int|lim|frac)/g)`: count
non-overlapping matches left to right, alternatives tried in order. -/
def opCountF : Nat → List Char → Nat
  | _, [] => 0
  | 0, _ => 0
  | fuel + 1, '\\' :: rest =>
    if ("sum".data).isPrefixOf rest then 1 + opCountF fuel (rest.drop 3)
    else if ("prod".data).isPrefixOf rest then 1 + opCountF fuel (rest.drop 4)
    else if ("int".data).isPrefixOf rest then 1 + opCountF fuel (rest.drop 3)
    else if ("lim".data).isPrefixOf rest then 1 + opCountF fuel (rest.drop 3)
    else if ("frac".data).isPrefixOf rest then 1 + opCountF fuel (rest.drop 4)
    else opCountF fuel rest
  | fuel + 1, _ :: rest => opCountF fuel rest

/-- Number of sum/prod/int/lim/frac command occurrences. -/
def opCount (l : List Char) : Nat := opCountF l.length l

/-- The regex `/\\begin\{[pbvBV]?matrix\}/`: exactly the six literal matrix
environment markers. -/
def matrixTest (l : List Char) : Bool :=
  containsSub "\\begin{matrix}".data l ||
  containsSub "\\begin{pmatrix}".data l ||
  containsSub "\\begin{bmatrix}".data l ||
  containsSub "\\begin{vmatrix}".data l ||
  containsSub "\\begin{Bmatrix}".data l ||
  containsSub "\\begin{Vmatrix}".data l

/-- The raw pre-clamp complexity sum of `estimateComplexity` (lines 226-243):
base 1, plus the clamped length, nesting, operator and matrix factors, before
the final `min(10, score)`. -/
def rawComplexity (l : List Char) : Int :=
  1 + min 3 ((l.length : Int) / 50) + min 2 (countNesting l)
    + min 2 ((opCount l : Int)) + (if matrixTest l then 2 else 0)

/-- Source function `estimateComplexity` (lines 226-244). -/
def estimateComplexity (l : List Char) : Int :=
  min 10 (rawComplexity l)

/-- The `structure` record built by `analyzeStructure` (lines 193-221).  The
source field `type` is filled in by the classification chain after the flags
are computed. -/
structure EquationStructure where
  isEquation : Bool
  isInequality : Bool
  isDefinition : Bool
  hasSummation : Bool
  hasIntegral : Bool
  hasFraction : Bool
  hasMatrix : Bool
  complexity : Int
  type : List Char
deriving Repr, DecidableEq

/-- Source function `analyzeStructure` (lines 193-221): structural flags are
presence tests on the given string, and `type` is decided by the fixed
priority chain loss_function, gradient, probability, matrix_operation,
summation, general, first match winning. -/
def analyzeStructure (l : List Char) : EquationStructure :=
  let hasSummation := containsSub "\\sum".data l
  let hasMatrix := matrixTest l
  { isEquation := containsSub "=".data l
    isInequality := l.any (fun c => c = '<' || c = '>' || c = '≤' || c = '≥')
    isDefinition := containsSub ":=".data l || containsSub "\\triangleq".data l
    hasSummation := hasSummation
    hasIntegral := containsSub "\\int".data l
    hasFraction := containsSub "\\frac".data l
    hasMatrix := hasMatrix
    complexity := estimateComplexity l
    type :=
      if hasSummation && (containsSub "loss".data l ||
          containsSub "\\mathcal{L}".data l) then "loss_function".data
      else if containsSub "\\nabla".data l ||
          containsSub "\\partial".data l then "gradient".data
      else if containsSub "\\mathbb{E}".data l ||
          containsSub "\\Pr".data l then "probability".data
      else if hasMatrix then "matrix_operation".data
      else if hasSummation then "summation".data
      else "general".data }

/-- The record returned by `parse` (lines 36-48).  The source field named
`structure` is called `struct` here because `structure` is a Lean keyword,
and the source field named `variables` is called `vars` because `variables`
is a reserved Lean token. -/
structure ParsedEquation where
  original : List Char
  cleaned : List Char
  readable : List Char
  vars : List VarEntry
  operators : List (List Char)
  functions : List (List Char)
  struct : EquationStructure
deriving Repr, DecidableEq

/-- Source function `parse` (lines 36-48): clean once, then feed the cleaned
string to every downstream extractor. -/
def parse (l : List Char) : ParsedEquation :=
  let cleaned := clean l
  { original := l
    cleaned := cleaned
    readable := toReadable cleaned
    vars := extractVariables cleaned
    operators := extractOperators cleaned
    functions := extractFunctions cleaned
    struct := analyzeStructure cleaned }

/-! ### Helper lemmas -/

theorem countNestingAux_le (l : List Char) :
    ∀ (cur maxDepth : Int), maxDepth ≤ countNestingAux l cur maxDepth := by
  induction l with
  | nil => intro cur maxDepth; simp [countNestingAux]
  | cons c rest ih =>
    intro cur maxDepth
    simp only [countNestingAux]
    split
    · exact le_trans (le_max_left _ _) (ih _ _)
    · split
      · exact ih _ _
      · exact ih _ _

theorem countNesting_nonneg (l : List Char) : 0 ≤ countNesting l :=
  countNestingAux_le l 0 0

theorem estimateComplexity_bounds (l : List Char) :
    1 ≤ estimateComplexity l ∧ estimateComplexity l ≤ 10 := by
  have hn : (0 : Int) ≤ countNesting l := countNesting_nonneg l
  have hd : (0 : Int) ≤ (l.length : Int) / 50 :=
    Int.ediv_nonneg (Int.natCast_nonneg _) (by norm_num)
  have hc : (0 : Int) ≤ (opCount l : Int) := Int.natCast_nonneg _
  have ha : (0 : Int) ≤ min 3 ((l.length : Int) / 50) := le_min (by norm_num) hd
  have hb : (0 : Int) ≤ min 2 (countNesting l) := le_min (by norm_num) hn
  have hcc : (0 : Int) ≤ min 2 ((opCount l : Int)) := le_min (by norm_num) hc
  have hm : (0 : Int) ≤ (if matrixTest l then (2 : Int) else 0) := by split <;> norm_num
  unfold estimateComplexity rawComplexity
  constructor
  · exact le_min (by norm_num) (by omega)
  · exact min_le_left _ _

theorem mem_of_mem_jsTrim {c : Char} {l : List Char} (h : c ∈ jsTrim l) : c ∈ l := by
  unfold jsTrim at h
  rw [List.mem_reverse] at h
  have h2 := (List.dropWhile_sublist (l := (l.dropWhile isWs).reverse) isWs).mem h
  rw [List.mem_reverse] at h2
  exact (List.dropWhile_sublist isWs).mem h2

theorem toReadable_no_braces (l : List Char) :
    '{' ∉ toReadable l ∧ '}' ∉ toReadable l := by
  constructor <;> intro h <;>
  · simp only [toReadable] at h
    have h2 := mem_of_mem_jsTrim h
    rw [List.mem_filter] at h2
    simp at h2

/-- No two adjacent whitespace characters: the key normal form produced by
the whitespace-collapsing pass of clean. -/
abbrev NoAdjWs (l : List Char) : Prop :=
  l.Chain' (fun a b => ¬(isWs a = true ∧ isWs b = true))

theorem scanF_mem {step : List Char → Option (List Char × List Char)}
    (hstep : ∀ l out rem, step l = some (out, rem) → out = [] ∧ rem <:+ l) :
    ∀ (fuel : Nat) (l : List Char) (c : Char), c ∈ scanF step fuel l → c ∈ l := by
  intro fuel
  induction fuel with
  | zero =>
    intro l c h
    cases l with
    | nil => exact absurd h (List.not_mem_nil c)
    | cons a rest => exact h
  | succ n ih =>
    intro l c h
    cases l with
    | nil => exact absurd h (List.not_mem_nil c)
    | cons a rest =>
      rw [scanF] at h
      cases hs : step (a :: rest) with
      | none =>
        rw [hs] at h
        simp only [List.mem_cons] at h ⊢
        rcases h with h | h
        · exact Or.inl h
        · exact Or.inr (ih rest c h)
      | some p =>
        obtain ⟨out, rem⟩ := p
        rw [hs] at h
        dsimp only at h
        obtain ⟨ho, hsuf⟩ := hstep _ _ _ hs
        subst ho
        rw [List.nil_append] at h
        exact hsuf.subset (ih rem c h)

theorem scanF_id {step : List Char → Option (List Char × List Char)}
    (hstep : ∀ (a : Char) (rest : List Char), a ≠ '\\' → step (a :: rest) = none) :
    ∀ (fuel : Nat) (l : List Char), '\\' ∉ l → scanF step fuel l = l := by
  intro fuel
  induction fuel with
  | zero => intro l _; cases l <;> simp [scanF]
  | succ n ih =>
    intro l h
    cases l with
    | nil => simp [scanF]
    | cons a rest =>
      have ha : a ≠ '\\' := fun hh => h (by simp [hh])
      rw [scanF, hstep a rest ha]
      dsimp only
      rw [ih rest (fun hm => h (List.mem_cons_of_mem a hm))]

theorem matchBraced_suffix :
    ∀ (pre l inner rem : List Char),
      matchBraced pre l = some (inner, rem) → rem <:+ l := by
  intro pre
  induction pre with
  | nil =>
    intro l inner rem h
    cases l with
    | nil => simp [matchBraced] at h
    | cons c r2 =>
      simp only [matchBraced] at h
      split at h
      · split at h
        · simp only [Option.some.injEq, Prod.mk.injEq] at h
          obtain ⟨_, h2⟩ := h
          subst h2
          exact (List.drop_suffix _ r2).trans (List.suffix_cons c r2)
        · exact absurd h (by simp)
      · exact absurd h (by simp)
  | cons p ps ih =>
    intro l inner rem h
    cases l with
    | nil => simp [matchBraced] at h
    | cons c rest =>
      simp only [matchBraced] at h
      split at h
      · exact (ih rest inner rem h).trans (List.suffix_cons c rest)
      · exact absurd h (by simp)

theorem beginStep_some {l out rem : List Char}
    (h : beginStep l = some (out, rem)) : out = [] ∧ rem <:+ l := by
  unfold beginStep at h
  cases hm : matchBraced "\\begin".data l with
  | none => rw [hm] at h; simp at h
  | some p =>
    rw [hm] at h
    simp only [Option.some.injEq, Prod.mk.injEq] at h
    obtain ⟨h1, h2⟩ := h
    exact ⟨h1.symm, h2 ▸ matchBraced_suffix _ _ p.1 p.2 (by rw [hm])⟩

theorem endStep_some {l out rem : List Char}
    (h : endStep l = some (out, rem)) : out = [] ∧ rem <:+ l := by
  unfold endStep at h
  cases hm : matchBraced "\\end".data l with
  | none => rw [hm] at h; simp at h
  | some p =>
    rw [hm] at h
    simp only [Option.some.injEq, Prod.mk.injEq] at h
    obtain ⟨h1, h2⟩ := h
    exact ⟨h1.symm, h2 ▸ matchBraced_suffix _ _ p.1 p.2 (by rw [hm])⟩

theorem beginStep_none {a : Char} {rest : List Char} (h : a ≠ '\\') :
    beginStep (a :: rest) = none := by
  unfold beginStep
  have he : "\\begin".data = '\\' :: "begin".data := rfl
  rw [he]
  simp [matchBraced, h]

theorem endStep_none {a : Char} {rest : List Char} (h : a ≠ '\\') :
    endStep (a :: rest) = none := by
  unfold endStep
  have he : "\\end".data = '\\' :: "end".data := rfl
  rw [he]
  simp [matchBraced, h]

theorem mem_removeBegin {c : Char} {l : List Char} (h : c ∈ removeBegin l) :
    c ∈ l :=
  scanF_mem (fun _ _ _ hs => beginStep_some hs) l.length l c h

theorem mem_removeEnd {c : Char} {l : List Char} (h : c ∈ removeEnd l) :
    c ∈ l :=
  scanF_mem (fun _ _ _ hs => endStep_some hs) l.length l c h

theorem removeBegin_id {l : List Char} (h : '\\' ∉ l) : removeBegin l = l :=
  scanF_id (fun _ _ ha => beginStep_none ha) l.length l h

theorem removeEnd_id {l : List Char} (h : '\\' ∉ l) : removeEnd l = l :=
  scanF_id (fun _ _ ha => endStep_none ha) l.length l h

theorem mem_removeMathDelims {c : Char} :
    ∀ {l : List Char}, c ∈ removeMathDelims l → c ∈ l := by
  intro l
  induction l using removeMathDelims.induct with
  | case1 => intro h; simp [removeMathDelims] at h
  | case2 rest ih =>
    intro h
    exact List.mem_cons_of_mem _ (List.mem_cons_of_mem _ (ih h))
  | case3 rest ih =>
    intro h
    exact List.mem_cons_of_mem _ (List.mem_cons_of_mem _ (ih h))
  | case4 a rest h1 h2 ih =>
    intro h
    rw [removeMathDelims] at h
    · rcases List.mem_cons.mp h with h | h
      · exact h ▸ List.mem_cons_self a rest
      · exact List.mem_cons_of_mem a (ih h)
    · exact h1
    · exact h2

theorem removeMathDelims_id :
    ∀ {l : List Char}, '\\' ∉ l → removeMathDelims l = l := by
  intro l
  induction l using removeMathDelims.induct with
  | case1 => intro _; rfl
  | case2 rest ih => intro h; exact absurd (List.mem_cons_self _ _) h
  | case3 rest ih => intro h; exact absurd (List.mem_cons_self _ _) h
  | case4 a rest h1 h2 ih =>
    intro h
    rw [removeMathDelims]
    · rw [ih (fun hm => h (List.mem_cons_of_mem a hm))]
    · exact h1
    · exact h2

theorem mem_removeDollars {c : Char} :
    ∀ {l : List Char}, c ∈ removeDollars l → c ∈ l := by
  intro l
  induction l using removeDollars.induct with
  | case1 => intro h; simp [removeDollars] at h
  | case2 rest ih =>
    intro h
    exact List.mem_cons_of_mem _ (List.mem_cons_of_mem _ (ih h))
  | case3 rest h1 ih =>
    intro h
    rw [removeDollars] at h
    · exact List.mem_cons_of_mem _ (ih h)
    · exact h1
  | case4 a rest h1 h2 ih =>
    intro h
    rw [removeDollars] at h
    · rcases List.mem_cons.mp h with h | h
      · exact h ▸ List.mem_cons_self a rest
      · exact List.mem_cons_of_mem a (ih h)
    · exact h1
    · exact h2

theorem removeDollars_not_mem :
    ∀ (l : List Char), '$' ∉ removeDollars l := by
  intro l
  induction l using removeDollars.induct with
  | case1 => simp [removeDollars]
  | case2 rest ih => exact ih
  | case3 rest h1 ih =>
    rw [removeDollars]
    · exact ih
    · exact h1
  | case4 a rest h1 h2 ih =>
    rw [removeDollars]
    · intro hm
      rcases List.mem_cons.mp hm with hm | hm
      · exact h2 hm.symm
      · exact ih hm
    · exact h1
    · exact h2

theorem removeDollars_id :
    ∀ {l : List Char}, '$' ∉ l → removeDollars l = l := by
  intro l
  induction l using removeDollars.induct with
  | case1 => intro _; rfl
  | case2 rest ih => intro h; exact absurd (List.mem_cons_self _ _) h
  | case3 rest h1 ih => intro h; exact absurd (List.mem_cons_self _ _) h
  | case4 a rest h1 h2 ih =>
    intro h
    rw [removeDollars]
    · rw [ih (fun hm => h (List.mem_cons_of_mem a hm))]
    · exact h1
    · exact h2

theorem mem_replaceLineBreaks {c : Char} :
    ∀ {l : List Char}, c ∈ replaceLineBreaks l → c ∈ l ∨ c = ' ' := by
  intro l
  induction l using replaceLineBreaks.induct with
  | case1 => intro h; simp [replaceLineBreaks] at h
  | case2 rest ih =>
    intro h
    rcases List.mem_cons.mp h with h | h
    · exact Or.inr h
    · rcases ih h with h2 | h2
      · exact Or.inl (List.mem_cons_of_mem _ (List.mem_cons_of_mem _ h2))
      · exact Or.inr h2
  | case3 a rest h1 ih =>
    intro h
    rw [replaceLineBreaks] at h
    · rcases List.mem_cons.mp h with h | h
      · exact Or.inl (h ▸ List.mem_cons_self a rest)
      · rcases ih h with h2 | h2
        · exact Or.inl (List.mem_cons_of_mem a h2)
        · exact Or.inr h2
    · exact h1

theorem replaceLineBreaks_no_bs :
    ∀ (l : List Char), '\\' ∉ l → replaceLineBreaks l = l := by
  intro l
  induction l using replaceLineBreaks.induct with
  | case1 => intro _; rfl
  | case2 rest ih => intro h; exact absurd (List.mem_cons_self _ _) h
  | case3 a rest h1 ih =>
    intro h
    rw [replaceLineBreaks]
    · rw [ih (fun hm => h (List.mem_cons_of_mem a hm))]
    · exact h1

theorem mem_replaceAmp {c : Char} {l : List Char} (h : c ∈ replaceAmp l) :
    c ∈ l ∨ c = ' ' := by
  rw [replaceAmp, List.mem_map] at h
  obtain ⟨a, ha, he⟩ := h
  by_cases h2 : a = '&'
  · subst h2; rw [if_pos rfl] at he; exact Or.inr he.symm
  · rw [if_neg h2] at he; exact Or.inl (he ▸ ha)

theorem replaceAmp_no_amp (l : List Char) : '&' ∉ replaceAmp l := by
  intro h
  rw [replaceAmp, List.mem_map] at h
  obtain ⟨a, _, he⟩ := h
  by_cases h2 : a = '&'
  · rw [if_pos h2] at he; exact absurd he (by decide)
  · rw [if_neg h2] at he; exact h2 he

theorem replaceAmp_id : ∀ {l : List Char}, '&' ∉ l → replaceAmp l = l := by
  intro l
  induction l with
  | nil => intro _; rfl
  | cons a r ih =>
    intro h
    have ha : a ≠ '&' := fun hh => h (hh ▸ List.mem_cons_self a r)
    show (if a = '&' then ' ' else a) :: replaceAmp r = a :: r
    rw [if_neg ha, ih (fun hm => h (List.mem_cons_of_mem a hm))]

theorem collapseWs_head_of_not_ws {d : Char} (rest : List Char)
    (hd : isWs d = false) : (collapseWs (d :: rest)).head? = some d := by
  cases rest <;> simp [collapseWs, hd]

theorem collapseWs_props : ∀ l : List Char,
    (∀ c ∈ collapseWs l, c ∈ l ∨ c = ' ') ∧
    (∀ c ∈ collapseWs l, isWs c = true → c = ' ') ∧
    NoAdjWs (collapseWs l) := by
  intro l
  induction l using collapseWs.induct with
  | case1 => simp [collapseWs]
  | case2 c hc => simp [collapseWs, hc, List.chain'_singleton]
  | case3 c hc => simp [collapseWs, hc, List.chain'_singleton]
  | case4 c d rest hc hd ih =>
    obtain ⟨ih1, ih2, ih3⟩ := ih
    rw [show collapseWs (c :: d :: rest) = collapseWs (d :: rest) by
      rw [collapseWs]; simp [hc, hd]]
    refine ⟨fun x hx => ?_, ih2, ih3⟩
    rcases ih1 x hx with h | h
    · exact Or.inl (List.mem_cons_of_mem c h)
    · exact Or.inr h
  | case5 c d rest hc hd ih =>
    obtain ⟨ih1, ih2, ih3⟩ := ih
    have hd' : isWs d = false := by simpa using hd
    rw [show collapseWs (c :: d :: rest) = ' ' :: collapseWs (d :: rest) by
      rw [collapseWs]; simp [hc, hd']]
    refine ⟨fun x hx => ?_, fun x hx hw => ?_, ?_⟩
    · rcases List.mem_cons.mp hx with h | h
      · exact Or.inr h
      · rcases ih1 x h with h2 | h2
        · exact Or.inl (List.mem_cons_of_mem c h2)
        · exact Or.inr h2
    · rcases List.mem_cons.mp hx with h | h
      · exact h
      · exact ih2 x h hw
    · refine List.chain'_cons'.mpr ⟨fun y hy => ?_, ih3⟩
      rw [collapseWs_head_of_not_ws rest hd'] at hy
      rw [Option.mem_def, Option.some.injEq] at hy
      subst hy
      intro hcontra
      exact hd hcontra.2
  | case6 c d rest hc ih =>
    obtain ⟨ih1, ih2, ih3⟩ := ih
    rw [show collapseWs (c :: d :: rest) = c :: collapseWs (d :: rest) by
      rw [collapseWs]; simp [hc]]
    refine ⟨fun x hx => ?_, fun x hx hw => ?_, ?_⟩
    · rcases List.mem_cons.mp hx with h | h
      · exact Or.inl (h ▸ List.mem_cons_self c _)
      · rcases ih1 x h with h2 | h2
        · exact Or.inl (List.mem_cons_of_mem c h2)
        · exact Or.inr h2
    · rcases List.mem_cons.mp hx with h | h
      · exact absurd (h ▸ hw) hc
      · exact ih2 x h hw
    · exact List.chain'_cons'.mpr ⟨fun y _ hcontra => hc hcontra.1, ih3⟩

theorem collapseWs_id : ∀ l : List Char,
    (∀ c ∈ l, isWs c = true → c = ' ') → NoAdjWs l → collapseWs l = l := by
  intro l
  induction l using collapseWs.induct with
  | case1 => intro _ _; rfl
  | case2 c hc =>
    intro h1 _
    have hce := h1 c (List.mem_cons_self c []) hc
    subst hce
    simp [collapseWs, hc]
  | case3 c hc => intro _ _; simp [collapseWs, hc]
  | case4 c d rest hc hd ih =>
    intro h1 h2
    exact absurd ⟨hc, hd⟩ (List.chain'_cons.mp h2).1
  | case5 c d rest hc hd ih =>
    intro h1 h2
    have h2' := List.chain'_cons.mp h2
    have ihc := ih (fun x hx hw => h1 x (List.mem_cons_of_mem c hx) hw) h2'.2
    have hd' : isWs d = false := by simpa using hd
    have hce := h1 c (List.mem_cons_self c _) hc
    rw [collapseWs]
    simp only [hc, hd', if_true, Bool.false_eq_true, if_false]
    rw [ihc, hce]
  | case6 c d rest hc ih =>
    intro h1 h2
    have h2' := List.chain'_cons.mp h2
    have ihc := ih (fun x hx hw => h1 x (List.mem_cons_of_mem c hx) hw) h2'.2
    rw [collapseWs]
    have hc' : isWs c = false := by simpa using hc
    simp only [hc', Bool.false_eq_true, if_false]
    rw [ihc]

theorem head?_dropWhile_false {p : Char → Bool} {m : List Char} {c : Char}
    (h : (m.dropWhile p).head? = some c) : p c = false := by
  have h2 := List.head?_dropWhile_not p m
  rw [h] at h2
  exact h2

theorem dropWhile_eq_self_of_head {p : Char → Bool} {m : List Char}
    (h : ∀ c, m.head? = some c → p c = false) : m.dropWhile p = m := by
  cases m with
  | nil => rfl
  | cons a r => simp [List.dropWhile_cons, h a rfl]

theorem getLast?_dropWhile_ne_nil {p : Char → Bool} {m : List Char}
    (h : m.dropWhile p ≠ []) : (m.dropWhile p).getLast? = m.getLast? := by
  conv_rhs => rw [← List.takeWhile_append_dropWhile (p := p) (l := m)]
  rw [List.getLast?_append]
  rcases hq : (m.dropWhile p).getLast? with _ | c
  · exact absurd (by simpa using hq) h
  · rfl

theorem jsTrim_idem (l : List Char) : jsTrim (jsTrim l) = jsTrim l := by
  have key : (jsTrim l).dropWhile isWs = jsTrim l := by
    apply dropWhile_eq_self_of_head
    intro c hc
    unfold jsTrim at hc
    rw [List.head?_reverse] at hc
    by_cases hnil : ((l.dropWhile isWs).reverse).dropWhile isWs = []
    · rw [hnil] at hc; simp at hc
    · rw [getLast?_dropWhile_ne_nil hnil, List.getLast?_reverse] at hc
      exact head?_dropWhile_false hc
  have key2 : ((jsTrim l).reverse).dropWhile isWs = (jsTrim l).reverse := by
    apply dropWhile_eq_self_of_head
    intro c hc
    unfold jsTrim at hc
    rw [List.reverse_reverse] at hc
    exact head?_dropWhile_false hc
  rw [show jsTrim (jsTrim l) =
      (((jsTrim l).dropWhile isWs).reverse.dropWhile isWs).reverse from rfl,
    key, key2, List.reverse_reverse]

theorem noAdjWs_reverse {l : List Char} (h : NoAdjWs l) : NoAdjWs l.reverse := by
  apply List.chain'_reverse.mpr
  exact List.Chain'.imp (fun a b hab hc => hab ⟨hc.2, hc.1⟩) h

theorem noAdjWs_dropWhile {p : Char → Bool} {l : List Char} (h : NoAdjWs l) :
    NoAdjWs (l.dropWhile p) :=
  h.suffix (List.dropWhile_suffix p)

theorem noAdjWs_jsTrim {l : List Char} (h : NoAdjWs l) : NoAdjWs (jsTrim l) :=
  noAdjWs_reverse (noAdjWs_dropWhile (noAdjWs_reverse (noAdjWs_dropWhile h)))

theorem clean_no_backslash {l : List Char} (h : '\\' ∉ l) : '\\' ∉ clean l := by
  intro hc
  unfold clean at hc
  have h1 := mem_of_mem_jsTrim hc
  rcases (collapseWs_props _).1 _ h1 with h2 | h2
  · rcases mem_replaceLineBreaks h2 with h3 | h3
    · rcases mem_replaceAmp h3 with h4 | h4
      · exact h (mem_of_mem_jsTrim (mem_removeMathDelims (mem_removeDollars
          (mem_removeBegin (mem_removeEnd h4)))))
      · exact absurd h4 (by decide)
    · exact absurd h3 (by decide)
  · exact absurd h2 (by decide)

theorem clean_no_dollar (l : List Char) : '$' ∉ clean l := by
  intro hc
  unfold clean at hc
  have h1 := mem_of_mem_jsTrim hc
  rcases (collapseWs_props _).1 _ h1 with h2 | h2
  · rcases mem_replaceLineBreaks h2 with h3 | h3
    · rcases mem_replaceAmp h3 with h4 | h4
      · exact removeDollars_not_mem _ (mem_removeBegin (mem_removeEnd h4))
      · exact absurd h4 (by decide)
    · exact absurd h3 (by decide)
  · exact absurd h2 (by decide)

theorem clean_no_amp (l : List Char) : '&' ∉ clean l := by
  intro hc
  unfold clean at hc
  have h1 := mem_of_mem_jsTrim hc
  rcases (collapseWs_props _).1 _ h1 with h2 | h2
  · rcases mem_replaceLineBreaks h2 with h3 | h3
    · exact replaceAmp_no_amp _ h3
    · exact absurd h3 (by decide)
  · exact absurd h2 (by decide)

theorem clean_allWsSpace (l : List Char) :
    ∀ c ∈ clean l, isWs c = true → c = ' ' := by
  intro c hc hw
  unfold clean at hc
  exact (collapseWs_props _).2.1 c (mem_of_mem_jsTrim hc) hw

theorem clean_noAdjWs (l : List Char) : NoAdjWs (clean l) := by
  unfold clean
  exact noAdjWs_jsTrim (collapseWs_props _).2.2

theorem jsTrim_clean (l : List Char) : jsTrim (clean l) = clean l := by
  unfold clean
  exact jsTrim_idem _

/-! ### Claim theorems -/

/-! ### Claim theorems -/

/-- C3: for every input string the complexity stored in the structure record
is an integer between 1 and 10 inclusive, and for the empty string it is
exactly 1. -/
theorem c3_complexity_bounds :
    (∀ l : List Char,
      1 ≤ (parse l).struct.complexity ∧ (parse l).struct.complexity ≤ 10) ∧
    (parse ([] : List Char)).struct.complexity = 1 := by
  refine ⟨fun l => ?_, by decide⟩
  simpa [parse, analyzeStructure] using estimateComplexity_bounds (clean l)

/-- C10: the readable field returned by parse never contains a brace
character, because the final passes of toReadable delete every brace and the
trailing trim introduces no character. -/
theorem c10_readable_no_braces :
    ∀ l : List Char, '{' ∉ (parse l).readable ∧ '}' ∉ (parse l).readable := by
  intro l
  simpa [parse] using toReadable_no_braces (clean l)

/-- C8: parse is total: it is a function defined on all strings, it preserves
the input verbatim in the original field, records the cleaned string, keeps
the complexity within bounds and always produces one of the six
classification values; no input is rejected. -/
theorem c8_parse_total :
    ∀ l : List Char,
      (parse l).original = l ∧ (parse l).cleaned = clean l ∧
      (1 ≤ (parse l).struct.complexity ∧ (parse l).struct.complexity ≤ 10) ∧
      ((parse l).struct.type = "loss_function".data ∨
       (parse l).struct.type = "gradient".data ∨
       (parse l).struct.type = "probability".data ∨
       (parse l).struct.type = "matrix_operation".data ∨
       (parse l).struct.type = "summation".data ∨
       (parse l).struct.type = "general".data) := by
  intro l
  refine ⟨rfl, rfl, ?_, ?_⟩
  · simpa [parse, analyzeStructure] using estimateComplexity_bounds (clean l)
  · simp only [parse, analyzeStructure]
    split
    · exact Or.inl rfl
    · split
      · exact Or.inr (Or.inl rfl)
      · split
        · exact Or.inr (Or.inr (Or.inl rfl))
        · split
          · exact Or.inr (Or.inr (Or.inr (Or.inl rfl)))
          · split
            · exact Or.inr (Or.inr (Or.inr (Or.inr (Or.inl rfl))))
            · exact Or.inr (Or.inr (Or.inr (Or.inr (Or.inr rfl))))

/-- C1: the claim fails on the code.  The input below contains the matrix
marker `\begin{pmatrix}`, but `clean` removes every `\begin{...}` and
`\end{...}` wrapper before `analyzeStructure` and `estimateComplexity` test
for a matrix marker, so through `parse` the flag hasMatrix is false, no +2 is
added to the complexity sum (the complexity is 1, not 3), and the type falls
through to general instead of matrix_operation. -/
theorem c1_matrix_marker_stripped_by_clean :
    containsSub "\\begin{pmatrix}".data
      "\\begin{pmatrix} a & b \\end{pmatrix}".data = true ∧
    (parse "\\begin{pmatrix} a & b \\end{pmatrix}".data).struct.hasMatrix = false ∧
    (parse "\\begin{pmatrix} a & b \\end{pmatrix}".data).struct.type = "general".data ∧
    (parse "\\begin{pmatrix} a & b \\end{pmatrix}".data).struct.complexity = 1 := by
  decide

/-- C2 counterexample: clean is not idempotent.  Removing the `\end{q}`
wrapper from this input splices together a new `\begin{x}` wrapper, which a
second application of clean removes. -/
theorem c2_clean_not_idempotent_cex :
    clean (clean "\\begin\\end{q}{x}".data) ≠ clean "\\begin\\end{q}{x}".data := by
  decide

/-- C2 amended: clean is idempotent on every input containing no backslash;
in general it is not, because removal of an `\end{...}` wrapper (or of a
`\begin{...}` wrapper) can splice together a new occurrence of a pattern
handled by an earlier pass, which only a second application of clean removes.
On a backslash-free input the output of clean contains no dollar sign, no
ampersand, no backslash, only single spaces as whitespace, and is trimmed, so
every pass of a second clean is the identity. -/
theorem c2_clean_idempotent_of_no_backslash :
    ∀ l : List Char, '\\' ∉ l → clean (clean l) = clean l := by
  intro l hbs
  have hb : '\\' ∉ clean l := clean_no_backslash hbs
  have hd : '$' ∉ clean l := clean_no_dollar l
  have ha : '&' ∉ clean l := clean_no_amp l
  have e1 : clean (clean l) =
      jsTrim (collapseWs (replaceLineBreaks (replaceAmp (removeEnd (removeBegin
        (removeDollars (removeMathDelims (jsTrim (clean l))))))))) := rfl
  rw [e1, jsTrim_clean, removeMathDelims_id hb, removeDollars_id hd,
    removeBegin_id hb, removeEnd_id hb, replaceAmp_id ha,
    replaceLineBreaks_no_bs _ hb,
    collapseWs_id _ (clean_allWsSpace l) (clean_noAdjWs l), jsTrim_clean]

/-- Witness for the amended C2 theorem at a concrete backslash-free input. -/
theorem c2_clean_idempotent_witness :
    '\\' ∉ "a  $ b".data ∧
    clean (clean "a  $ b".data) = clean "a  $ b".data :=
  ⟨by decide, c2_clean_idempotent_of_no_backslash _ (by decide)⟩

/-- C5 amended: the classification chain is evaluated in the fixed priority
order with the first match winning, but its probability rule tests only for
the literal substrings `\mathbb{E}` and `\Pr` in the cleaned string: whenever
one of those is present and neither the loss_function rule (summation
together with `loss` or `\mathcal{L}`) nor the gradient rule (`\nabla` or
`\partial`) fires, the type is probability.  Inputs whose expectation or
probability operator is detected by the operators list only through the
`\E`, `\P` or `\mathbb{P}` forms fall through this rule. -/
theorem c5_probability_type_of_literal_markers :
    ∀ l : List Char,
      (containsSub "\\mathbb{E}".data (clean l) = true ∨
        containsSub "\\Pr".data (clean l) = true) →
      (containsSub "\\sum".data (clean l) = false ∨
        (containsSub "loss".data (clean l) = false ∧
          containsSub "\\mathcal{L}".data (clean l) = false)) →
      (containsSub "\\nabla".data (clean l) = false ∧
        containsSub "\\partial".data (clean l) = false) →
      (parse l).struct.type = "probability".data := by
  intro l h1 h2 h3
  obtain ⟨h3a, h3b⟩ := h3
  rcases h1 with h1 | h1 <;> rcases h2 with h2 | h2
  · simp [parse, analyzeStructure, h1, h2, h3a, h3b]
  · simp [parse, analyzeStructure, h1, h2.1, h2.2, h3a, h3b]
  · simp [parse, analyzeStructure, h1, h2, h3a, h3b]
  · simp [parse, analyzeStructure, h1, h2.1, h2.2, h3a, h3b]

/-- Witness for the amended C5 theorem at a concrete input containing the
literal `\Pr` marker. -/
theorem c5_probability_type_witness :
    containsSub "\\Pr".data (clean "\\Pr(A)".data) = true ∧
    (parse "\\Pr(A)".data).struct.type = "probability".data :=
  ⟨by decide,
   c5_probability_type_of_literal_markers _ (Or.inr (by decide))
     (Or.inl (by decide)) ⟨by decide, by decide⟩⟩

/-- C4: the claim fails on the code.  Symbol substitution is a plain ordered
global string replacement with no token-boundary check; `\cdot` precedes
`\cdots` in the symbol table, so the input `\cdots` is rendered as the
corrupted `·s` rather than `⋯` (the table's own `\cdots` entry is
unreachable). -/
theorem c4_cdots_corrupted :
    (parse "\\cdots".data).readable = "·s".data ∧ "·s".data ≠ "⋯".data := by
  decide

/-- C5 counterexample: the input `\mathbb{P}(A)` is reported as containing a
probability operator in the operators list, matches neither the loss_function
nor the gradient rule, and yet its type is general, because the probability
classification rule only tests for the literal substrings `\mathbb{E}` and
`\Pr`. -/
theorem c5_probability_operator_without_type_cex :
    "probability".data ∈ (parse "\\mathbb{P}(A)".data).operators ∧
    (parse "\\mathbb{P}(A)".data).struct.type = "general".data ∧
    "general".data ≠ "probability".data := by
  decide

/-- C6: the claim fails on the code and the deduplicating intent of the
source's `Set` is defeated: `extractVariables` inserts freshly created
objects into a JS `Set`, which compares objects by reference, so the input
`x + x` yields two entries with the same symbol `x`. -/
theorem c6_duplicate_variables :
    (parse "x + x".data).vars =
      [⟨"x".data, "x".data, "latin".data⟩, ⟨"x".data, "x".data, "latin".data⟩] := by
  decide

/-- C7: the claim fails on the code: the norm pattern
`/\\|\s*\|.*?\|\s*\\||\|.*?\|/` contains an empty alternative, so its
presence test succeeds on every string and `norm` is tagged even for the
input `\alpha`, which contains no vertical bar. -/
theorem c7_norm_always_tagged :
    (parse "\\alpha".data).functions = ["norm".data] ∧
    '|' ∉ "\\alpha".data := by
  decide

/-- C9: for the input `\alpha + \beta = \gamma`, the readable form is
`α + β = γ`, the structure records an equation, and the variables list
contains the three Greek entries. -/
theorem c9_greek_example :
    (parse "\\alpha + \\beta = \\gamma".data).readable = "α + β = γ".data ∧
    (parse "\\alpha + \\beta = \\gamma".data).struct.isEquation = true ∧
    (⟨"α".data, "\\alpha".data, "greek".data⟩ : VarEntry) ∈
      (parse "\\alpha + \\beta = \\gamma".data).vars ∧
    (⟨"β".data, "\\beta".data, "greek".data⟩ : VarEntry) ∈
      (parse "\\alpha + \\beta = \\gamma".data).vars ∧
    (⟨"γ".data, "\\gamma".data, "greek".data⟩ : VarEntry) ∈
      (parse "\\alpha + \\beta = \\gamma".data).vars := by
  decide

